import Mathlib

/-! # A hash-linked block chain: `block`, `block_chain::Add`, `block_chain::find`

Shallow embedding of `src/blockchain.cpp`.

* `int` is modelled by `Int`; the only place where the width matters is the
  conversion of the `size_t` result of the string hasher to `int`
  (`toInt32`, reduction modulo `2^32` read as two's complement).
* `std::vector` is modelled by `List`, an iterator into a vector by its
  position (`end()` is the length of the list).
* `std::hash<std::string>` is a library object that the repository does not
  define.  Every general theorem takes it as a parameter `hasher`; the
  concrete `stdHash` below is the hash of the build recorded in the header
  comment of the source and is used only to evaluate the code on concrete
  inputs.
* `std::string` is modelled by `String`; the bytes that the hasher reads are
  the UTF-8 encoding of the text.
* The `while` loop of `find` is modelled with fuel: `none` means that the fuel
  ran out before the loop condition became false.
-/

namespace Blockchain

/-! ## Machine integers and strings -/

/-- Conversion of a `size_t` value to `int`: the low 32 bits, read as a
two's-complement signed integer. -/
def toInt32 (n : Nat) : Int :=
  if n % 2 ^ 32 < 2 ^ 31 then ((n % 2 ^ 32 : Nat) : Int)
  else ((n % 2 ^ 32 : Nat) : Int) - 2 ^ 32

/-- The values of the 32-bit type `int`. -/
def isInt32 (i : Int) : Prop := -(2 ^ 31) ≤ i ∧ i < 2 ^ 31

instance (i : Int) : Decidable (isInt32 i) := by
  unfold isInt32; infer_instance

/-- The library function `std::to_string(int)`: the decimal text of the value,
with a leading minus sign for negative values. -/
def to_string (i : Int) : String := toString i

/-- The library function `std::accumulate(first, last, init)` on strings: the
elements are appended to `init` from left to right with `operator+`. -/
def accumulate (xs : List String) (init : String) : String :=
  xs.foldl (fun acc x => acc ++ x) init

/-! ## The string hasher of the recorded build

`std::hash<std::string>` of libstdc++ on a 64-bit target hashes the bytes of
the string with `_Hash_bytes(ptr, len, 0xc70f6907)`.  -/

/-- The multiplier of `_Hash_bytes`. -/
def hashMul : Nat := 0xc6a4a793 * 2 ^ 32 + 0x5bd1e995

/-- The seed that `std::hash<std::string>` passes to `_Hash_bytes`. -/
def hashSeed : Nat := 0xc70f6907

/-- Product of two `size_t` values (wraps modulo `2^64`). -/
def mul64 (a b : Nat) : Nat := (a * b) % 2 ^ 64

/-- The mixing step `v ^ (v >> 47)`. -/
def shift_mix (v : Nat) : Nat := v ^^^ (v >>> 47)

/-- Little-endian load of at most eight bytes. -/
def load_bytes : List Nat → Nat
  | [] => 0
  | b :: rest => b + 256 * load_bytes rest

/-- The body of `_Hash_bytes` after the initialisation of `hash`: the loop
over the aligned 8-byte words, then the remaining `len & 7` bytes. -/
def hashWords : List Nat → Nat → Nat
  | b0 :: b1 :: b2 :: b3 :: b4 :: b5 :: b6 :: b7 :: rest, hash =>
    let data := mul64 (shift_mix (mul64 (load_bytes [b0, b1, b2, b3, b4, b5, b6, b7]) hashMul)) hashMul
    hashWords rest (mul64 (hash ^^^ data) hashMul)
  | [], hash => hash
  | tail, hash => mul64 (hash ^^^ load_bytes tail) hashMul

/-- The function `_Hash_bytes(ptr, len, seed)` on the bytes of a string. -/
def Hash_bytes (bytes : List Nat) (seed : Nat) : Nat :=
  let hash := hashWords bytes (seed ^^^ mul64 bytes.length hashMul)
  shift_mix (mul64 (shift_mix hash) hashMul)

/-- The bytes of a string (its UTF-8 encoding). -/
def stringBytes (s : String) : List Nat :=
  (s.data.map (fun c => (String.utf8EncodeChar c).map UInt8.toNat)).flatten

/-- The string hasher `std::hash<std::string>` of the recorded build. -/
def stdHash (s : String) : Nat := Hash_bytes (stringBytes s) hashSeed

/-! ## Class `block` -/

/-- The data members of class `block` (the hasher member carries no state and
is passed as a parameter where it is used). -/
structure block where
  iPreviousHash : Int
  sTransactions : List String
  iCurrentHash : Int
  deriving DecidableEq, Repr

/-- The member function `block::GetHash`: the string hash of the decimal text
of the previous hash followed by the transactions in order, converted to `int`. -/
def GetHash (hasher : String → Nat) (piPreviousHash : Int)
    (psTransactions : List String) : Int :=
  toInt32 (hasher (accumulate psTransactions (to_string piPreviousHash)))

/-- The constructor `block::block(int, vector<string>&)` (named `block.new`,
since inside the namespace of the structure the name `block` is the type). -/
def block.new (hasher : String → Nat) (pPreviousHash : Int)
    (psTransactions : List String) : block :=
  { iPreviousHash := pPreviousHash
    sTransactions := psTransactions
    iCurrentHash := GetHash hasher pPreviousHash psTransactions }

/-- Accessor `block::PreviousHash`. -/
def block.PreviousHash (b : block) : Int := b.iPreviousHash

/-- Accessor `block::CurrentHash`. -/
def block.CurrentHash (b : block) : Int := b.iCurrentHash

/-- Accessor `block::Transactions`. -/
def block.Transactions (b : block) : List String := b.sTransactions

/-! ## Class `block_chain` -/

/-- The mutable state of class `block_chain`: the vector `chain`. -/
structure block_chain where
  chain : List block
  deriving DecidableEq, Repr

/-- The default constructor `block_chain()`: an empty chain. -/
def block_chain.empty : block_chain := { chain := [] }

/-- Accessor `block_chain::GetBlocks`: a copy of the vector. -/
def block_chain.GetBlocks (bc : block_chain) : List block := bc.chain

/-- The algorithm `std::find_if(first, last, pred)` on a whole vector: the
position of the first element that satisfies `pred`, or the length of the
vector (`end()`) when there is none. -/
def find_if (known_blocks : List block) (pred : block → Bool) : Nat :=
  known_blocks.findIdx pred

/-- The `while` loop of `block_chain::find`.  `foundblock` is the current
iterator, `chainblocks` the result collected so far.  One unit of fuel is
spent on every evaluation of the loop condition. -/
def findLoop (known_blocks : List block) : Nat → Nat → List block → Option (List block)
  | 0, _, _ => none
  | fuel + 1, foundblock, chainblocks =>
    if h : foundblock < known_blocks.length then
      let b := known_blocks[foundblock]
      findLoop known_blocks fuel
        (find_if known_blocks (fun c => c.CurrentHash == b.PreviousHash))
        (chainblocks ++ [b])
    else
      some chainblocks

/-- The static member function `block_chain::find(header_id, known_blocks)`,
run with the given amount of fuel. -/
def block_chain.find (fuel : Nat) (header_id : Int) (known_blocks : List block) :
    Option (List block) :=
  findLoop known_blocks fuel
    (find_if known_blocks (fun b => b.CurrentHash == header_id)) []

/-- The member function `block_chain::Add`: the new state and the returned
hash. -/
def block_chain.Add (hasher : String → Nat) (bc : block_chain)
    (pvTransactions : List String) : block_chain × Int :=
  let iPreviousHash : Int :=
    if h : bc.chain ≠ [] then (bc.chain.getLast h).CurrentHash else -1
  let oNewBlock := block.new hasher iPreviousHash pvTransactions
  ({ chain := bc.chain ++ [oNewBlock] }, oNewBlock.CurrentHash)

/-- The chain obtained from an empty `block_chain` by successive `Add` calls,
one for each batch, in order. -/
def buildChain (hasher : String → Nat) (batches : List (List String)) : block_chain :=
  batches.foldl (fun bc t => (bc.Add hasher t).1) block_chain.empty

/-! ## Definitions used in the statements -/

/-- The hash that `Add` stores as previous hash: the current hash of the last
block, or the sentinel `-1` for an empty chain. -/
def tailHash (l : List block) : Int :=
  if h : l ≠ [] then (l.getLast h).CurrentHash else -1

/-- The two batches of the scenario of the specification. -/
def scenarioBatches : List (List String) := [["B 10 BTC"], ["S 20 ETH"]]

/-- The sequence of blocks collected by the loop of `find` from iterator
position `i` on: empty when `i` is `end()`, otherwise the block at `i`
followed by the blocks collected from the first position whose current hash
is the previous hash of that block. -/
def IsPath (known_blocks : List block) : Nat → List block → Prop
  | i, [] => known_blocks.length ≤ i
  | i, b :: r => known_blocks[i]? = some b ∧
      IsPath known_blocks (find_if known_blocks (fun c => c.CurrentHash == b.PreviousHash)) r

/-- The block `b` is the candidate at the smallest position whose current hash
is `id`. -/
def FirstMatch (known_blocks : List block) (id : Int) (b : block) : Prop :=
  ∃ j, known_blocks[j]? = some b ∧ b.CurrentHash = id ∧
    ∀ (j' : Nat) (c : block), j' < j → known_blocks[j']? = some c → c.CurrentHash ≠ id

/-- Two batches whose blocks, added in this order to an empty chain with the
hasher `stdHash`, get the same current hash. -/
def collidingBatches : List (List String) := [["B 10 BTC"], ["S 862471499 BTC"]]

/-- The linkage of a list of blocks: the first block has previous hash `-1`
and every later block has the current hash of its predecessor as previous
hash. -/
def Linked (l : List block) : Prop :=
  (∀ b, l[0]? = some b → b.PreviousHash = -1) ∧
  ∀ i a b, l[i]? = some a → l[i + 1]? = some b → b.PreviousHash = a.CurrentHash

/-- The position that the loop body of `find` moves to from position `i`: the
first position whose current hash is the previous hash of the block at `i`
(`end()` stays `end()`). -/
def nextPos (known_blocks : List block) (i : Nat) : Nat :=
  if h : i < known_blocks.length then
    find_if known_blocks (fun c => c.CurrentHash == known_blocks[i].PreviousHash)
  else known_blocks.length

/-- A batch whose block, added to an empty chain with the hasher `stdHash`,
gets the sentinel `-1` as current hash. -/
def sentinelBatches : List (List String) := [["B 436005874 BTC"]]

/-- Two constructed blocks that refer to each other: the previous hash of each
is the current hash of the other. -/
def cyclicBlocks : List block :=
  [block.new stdHash 1 ["B 10 BTC"], block.new stdHash 142461783 ["S 256842520 ETH"]]

/-- The ten transaction batches of the run recorded in the header comment of
the source. -/
def headerBatches : List (List String) :=
  [["B 47 EOS", "B 31 TRX"],
   ["B 82 TRX", "S 75 BCH", "B 26 ETH"],
   ["B 28 LTC", "B 65 XVG", "B 62 NEM"],
   ["B 56 BSV", "B 56 TRX", "B 39 DASH", "S 22 ETH"],
   ["S 65 EOS"],
   ["B 85 NEO", "B 11 TRX", "S 69 TRX"],
   ["S 92 BSV"],
   ["S 63 ETH", "B 62 LTC", "B 13 BTC", "B 9 BSV"],
   ["S 26 DASH"],
   ["B 43 ADA", "S 31 NEM", "B 83 ETC", "S 70 XRP", "B 38 XMR"]]

/-- The column `CurrentID` of the listing in the header comment of the source,
as printed (the `int` values in hexadecimal). -/
def headerCurrentIDs : List Nat :=
  [0xD449ED84, 0xCD098E70, 0xDB2D2585, 0x78D4E931, 0x80243B6B,
   0x9F9FA7AB, 0x9879F78F, 0xBC7278A1, 0xE43F992D, 0x80CAE46D]

/-- The position of the iterator `foundblock` of `find(header_id, known_blocks)`
after `k` passes through the loop body. -/
def walkPos (known_blocks : List block) (header_id : Int) (k : Nat) : Nat :=
  (nextPos known_blocks)^[k] (find_if known_blocks (fun b => b.CurrentHash == header_id))

/-- A constructed block that is not a first block of a chain (its previous
hash is `0`) and whose current hash under `stdHash` is the sentinel `-1`. -/
def sentinelHashedBlock : block := block.new stdHash 0 ["B 3087927869 BTC"]

/-! ## Basic facts about `Add` and the constructor -/

/-- The embedding, run with `stdHash` on the batches of the header comment of
the source, reproduces the recorded listing: the current hashes are the
printed `CurrentID` column, the first previous hash is `0xFFFFFFFF`, and
`find` from the last hash returns the ten blocks in reverse order. -/
theorem header_listing :
    (buildChain stdHash headerBatches).GetBlocks.map block.CurrentHash
      = headerCurrentIDs.map toInt32 ∧
    (buildChain stdHash headerBatches).GetBlocks.map block.PreviousHash
      = (0xFFFFFFFF :: headerCurrentIDs.take 9).map toInt32 ∧
    block_chain.find 11 (toInt32 0x80CAE46D) (buildChain stdHash headerBatches).GetBlocks
      = some (buildChain stdHash headerBatches).GetBlocks.reverse := by
  refine ⟨by decide, by decide, by decide⟩


theorem Add_chain (hasher : String → Nat) (bc : block_chain) (t : List String) :
    (bc.Add hasher t).1.chain = bc.chain ++ [block.new hasher (tailHash bc.chain) t] := rfl

theorem Add_snd (hasher : String → Nat) (bc : block_chain) (t : List String) :
    (bc.Add hasher t).2 = (block.new hasher (tailHash bc.chain) t).CurrentHash := rfl

theorem tailHash_nil : tailHash [] = -1 := rfl

theorem tailHash_append_singleton (l : List block) (b : block) :
    tailHash (l ++ [b]) = b.CurrentHash := by
  simp [tailHash]

theorem tailHash_eq_getLast_opt (l : List block) :
    tailHash l = (match l.getLast? with
      | some b => b.CurrentHash
      | none => -1) := by
  rcases List.eq_nil_or_concat l with rfl | ⟨l, b, rfl⟩
  · rfl
  · simp [tailHash]

theorem buildChain_nil (hasher : String → Nat) :
    (buildChain hasher []).chain = [] := rfl

theorem buildChain_concat (hasher : String → Nat) (batches : List (List String))
    (t : List String) :
    buildChain hasher (batches ++ [t]) = ((buildChain hasher batches).Add hasher t).1 := by
  simp [buildChain, List.foldl_append]

theorem buildChain_length (hasher : String → Nat) (batches : List (List String)) :
    (buildChain hasher batches).chain.length = batches.length := by
  induction batches using List.reverseRecOn with
  | nil => rfl
  | append_singleton bs t ih => simp [buildChain_concat, Add_chain, ih]

theorem toInt32_isInt32 (n : Nat) : isInt32 (toInt32 n) := by
  unfold isInt32 toInt32
  have h : n % 2 ^ 32 < 2 ^ 32 := Nat.mod_lt _ (by norm_num)
  split <;> omega

theorem accumulate_eq (xs : List String) (init : String) :
    accumulate xs init = init ++ String.join xs := by
  unfold accumulate String.join
  induction xs generalizing init with
  | nil => simp
  | cons x xs ih =>
    simp only [List.foldl_cons]
    rw [ih (init ++ x), ih ("" ++ x), String.append_assoc]
    simp

theorem tailHash_of_getLast (l : List block) (a : block) (i : Nat)
    (hi : i + 1 = l.length) (ha : l[i]? = some a) : tailHash l = a.CurrentHash := by
  rcases List.eq_nil_or_concat l with rfl | ⟨l, b, rfl⟩
  · simp at hi
  · have hl : i = l.length := by simpa using hi
    subst hl
    simp at ha
    simp [tailHash, ha]

theorem buildChain_head (hasher : String → Nat) (batches : List (List String))
    (b : block) (h : (buildChain hasher batches).chain[0]? = some b) :
    b.PreviousHash = -1 := by
  induction batches using List.reverseRecOn with
  | nil => simp [buildChain_nil] at h
  | append_singleton bs t ih =>
    rw [buildChain_concat, Add_chain] at h
    rcases hl : (buildChain hasher bs).chain with _ | ⟨c, l⟩
    · rw [hl] at h
      simp at h
      subst h
      rfl
    · rw [hl] at h ih
      simp at h
      exact ih (by simp [h])

theorem buildChain_linked (hasher : String → Nat) (batches : List (List String))
    (i : Nat) (a b : block)
    (ha : (buildChain hasher batches).chain[i]? = some a)
    (hb : (buildChain hasher batches).chain[i + 1]? = some b) :
    b.PreviousHash = a.CurrentHash := by
  induction batches using List.reverseRecOn with
  | nil => simp [buildChain_nil] at ha
  | append_singleton bs t ih =>
    rw [buildChain_concat, Add_chain] at ha hb
    rcases Nat.lt_trichotomy (i + 1) (buildChain hasher bs).chain.length with hlt | heq | hgt
    · rw [List.getElem?_append_left (by omega)] at ha
      rw [List.getElem?_append_left hlt] at hb
      exact ih ha hb
    · rw [List.getElem?_append_left (by omega)] at ha
      rw [List.getElem?_append_right (by omega)] at hb
      have h0 : i + 1 - (buildChain hasher bs).chain.length = 0 := by omega
      rw [h0] at hb
      simp at hb
      subst hb
      rw [← tailHash_of_getLast _ a i heq ha]
      rfl
    · rw [List.getElem?_append_right (by omega)] at hb
      have h0 : i + 1 - (buildChain hasher bs).chain.length =
          (i - (buildChain hasher bs).chain.length) + 1 := by omega
      rw [h0] at hb
      simp at hb

/-! ## Claims about construction and `Add` -/

/-- C1 (linkage invariant): the chain obtained from an empty `block_chain` by
`N ≥ 1` successive `Add` calls has `N` blocks, its first block has previous
hash `-1`, and for every `i` with `1 ≤ i ≤ N - 1` the previous hash of block
`i` is the current hash of block `i - 1`. -/
theorem linkage_invariant (hasher : String → Nat) (batches : List (List String))
    (hN : 1 ≤ batches.length) :
    (buildChain hasher batches).GetBlocks.length = batches.length ∧
    (∃ b0, (buildChain hasher batches).GetBlocks[0]? = some b0 ∧ b0.PreviousHash = -1) ∧
    ∀ i, 1 ≤ i → i ≤ batches.length - 1 →
      ∃ a b, (buildChain hasher batches).GetBlocks[i - 1]? = some a ∧
        (buildChain hasher batches).GetBlocks[i]? = some b ∧
        b.PreviousHash = a.CurrentHash := by
  have hlen := buildChain_length hasher batches
  refine ⟨hlen, ?_, ?_⟩
  · have h0 : 0 < (buildChain hasher batches).chain.length := by omega
    refine ⟨(buildChain hasher batches).chain[0], ?_, ?_⟩
    · simp [block_chain.GetBlocks]
    · exact buildChain_head hasher batches _ (by simp)
  · intro i h1 hi
    have ha : i - 1 < (buildChain hasher batches).chain.length := by omega
    have hb : i < (buildChain hasher batches).chain.length := by omega
    refine ⟨(buildChain hasher batches).chain[i - 1], (buildChain hasher batches).chain[i],
      ?_, ?_, ?_⟩
    · simp [block_chain.GetBlocks]
    · simp [block_chain.GetBlocks]
    · apply buildChain_linked hasher batches (i - 1)
      · simp
      · have : i - 1 + 1 = i := by omega
        simp [this]

/-- Witness of C1 on the scenario of the specification (two `Add` calls). -/
theorem linkage_invariant_witness :
    1 ≤ scenarioBatches.length ∧
    (buildChain stdHash scenarioBatches).GetBlocks.length = scenarioBatches.length ∧
    (∃ b0, (buildChain stdHash scenarioBatches).GetBlocks[0]? = some b0 ∧
      b0.PreviousHash = -1) ∧
    ∀ i, 1 ≤ i → i ≤ scenarioBatches.length - 1 →
      ∃ a b, (buildChain stdHash scenarioBatches).GetBlocks[i - 1]? = some a ∧
        (buildChain stdHash scenarioBatches).GetBlocks[i]? = some b ∧
        b.PreviousHash = a.CurrentHash :=
  ⟨by decide, linkage_invariant stdHash scenarioBatches (by decide)⟩

/-- C3 (result of `Add`): `Add(t)` appends one block `b` and returns
`b.CurrentHash()`; `b.Transactions()` is `t`, and `b.PreviousHash()` is the
current hash of the block that was last before the call, or `-1` if the chain
was empty; the block appended by a following `Add(u)` has the value returned
by this call as its previous hash. -/
theorem Add_result (hasher : String → Nat) (bc : block_chain) (t : List String) :
    ∃ b, (bc.Add hasher t).1.GetBlocks = bc.GetBlocks ++ [b] ∧
      (bc.Add hasher t).2 = b.CurrentHash ∧
      b.Transactions = t ∧
      b.PreviousHash = (match bc.GetBlocks.getLast? with
        | some l => l.CurrentHash
        | none => -1) ∧
      ∀ u, ∃ c, ((bc.Add hasher t).1.Add hasher u).1.GetBlocks =
          (bc.Add hasher t).1.GetBlocks ++ [c] ∧
        c.PreviousHash = (bc.Add hasher t).2 := by
  refine ⟨block.new hasher (tailHash bc.chain) t, rfl, rfl, rfl, ?_, ?_⟩
  · exact tailHash_eq_getLast_opt bc.chain
  · intro u
    refine ⟨block.new hasher (tailHash (bc.Add hasher t).1.chain) u, rfl, ?_⟩
    show tailHash (bc.Add hasher t).1.chain = _
    rw [Add_chain, tailHash_append_singleton, Add_snd]

/-- C5 (block construction): the block constructed from a 32-bit previous hash
`p` and a transaction list `t` has previous hash `p`, transactions `t`, and as
current hash the string hash, converted to a 32-bit signed integer, of the
decimal text of `p` followed by the transactions concatenated in order; the
text of the sentinel is "-1", and for an empty `t` the hashed string is the
decimal text of `p` alone.  The constructor is a total function. -/
theorem block_construction (hasher : String → Nat) (p : Int) (_hp : isInt32 p)
    (t : List String) :
    (block.new hasher p t).PreviousHash = p ∧
    (block.new hasher p t).Transactions = t ∧
    (block.new hasher p t).CurrentHash = toInt32 (hasher (to_string p ++ String.join t)) ∧
    isInt32 (block.new hasher p t).CurrentHash ∧
    to_string (-1) = "-1" ∧
    (block.new hasher p []).CurrentHash = toInt32 (hasher (to_string p)) := by
  refine ⟨rfl, rfl, ?_, toInt32_isInt32 _, by decide, rfl⟩
  show GetHash hasher p t = _
  rw [GetHash, accumulate_eq]

/-- Witness of C5: the first block of the listing in the header comment of the
source, `0xD449ED84` with previous hash `0xFFFFFFFF`. -/
theorem block_construction_witness :
    isInt32 (-1) ∧
    (block.new stdHash (-1) ["B 47 EOS", "B 31 TRX"]).PreviousHash = -1 ∧
    (block.new stdHash (-1) ["B 47 EOS", "B 31 TRX"]).CurrentHash
      = toInt32 (stdHash "-1B 47 EOSB 31 TRX") ∧
    toInt32 (stdHash "-1B 47 EOSB 31 TRX") = toInt32 0xD449ED84 :=
  ⟨by decide,
   (block_construction stdHash (-1) (by decide) ["B 47 EOS", "B 31 TRX"]).1,
   (block_construction stdHash (-1) (by decide) ["B 47 EOS", "B 31 TRX"]).2.2.1,
   by decide⟩

/-- C6 (append-only): `GetBlocks()` after `Add(t)` is `GetBlocks()` before the
call followed by exactly one new block; the length grows by one and every
earlier position holds the same block, with the same three fields.  `Add` is a
total function. -/
theorem Add_append_only (hasher : String → Nat) (bc : block_chain) (t : List String) :
    (∃ b, (bc.Add hasher t).1.GetBlocks = bc.GetBlocks ++ [b]) ∧
    (bc.Add hasher t).1.GetBlocks.length = bc.GetBlocks.length + 1 ∧
    ∀ i, i < bc.GetBlocks.length →
      ∃ old new, bc.GetBlocks[i]? = some old ∧ (bc.Add hasher t).1.GetBlocks[i]? = some new ∧
        new.PreviousHash = old.PreviousHash ∧ new.Transactions = old.Transactions ∧
        new.CurrentHash = old.CurrentHash ∧ new = old := by
  refine ⟨⟨_, Add_chain hasher bc t⟩, ?_, ?_⟩
  · simp [block_chain.GetBlocks, Add_chain]
  · intro i hi
    have hi2 : i < bc.chain.length := hi
    refine ⟨bc.chain[i], bc.chain[i], ?_, ?_, rfl, rfl, rfl, rfl⟩
    · simp [block_chain.GetBlocks, hi2]
    · simp [block_chain.GetBlocks, Add_chain, List.getElem?_append_left hi2]

/-! ## The loop of `find` and the paths it collects -/

theorem findLoop_eq_some_iff (known_blocks : List block) (fuel i : Nat)
    (acc out : List block) :
    findLoop known_blocks fuel i acc = some out ↔
      ∃ r, out = acc ++ r ∧ IsPath known_blocks i r ∧ r.length < fuel := by
  induction fuel generalizing i acc out with
  | zero => simp [findLoop]
  | succ fuel ih =>
    rw [findLoop]
    by_cases h : i < known_blocks.length
    · rw [dif_pos h]
      simp only []
      rw [ih]
      constructor
      · rintro ⟨r, rfl, hr, hlen⟩
        refine ⟨known_blocks[i] :: r, by simp, ⟨by simp, hr⟩, by simpa using hlen⟩
      · rintro ⟨r, rfl, hr, hlen⟩
        cases r with
        | nil => exact absurd hr (by simp [IsPath]; omega)
        | cons b r =>
          obtain ⟨hb, hr⟩ := hr
          have hb2 : known_blocks[i] = b := by
            rw [List.getElem?_eq_getElem h] at hb
            exact Option.some.inj hb
          subst hb2
          exact ⟨r, by simp, hr, by simpa using hlen⟩
    · rw [dif_neg h]
      constructor
      · intro ho
        have ho2 : acc = out := Option.some.inj ho
        subst ho2
        exact ⟨[], by simp, by simp [IsPath]; omega, by simp⟩
      · rintro ⟨r, rfl, hr, hlen⟩
        cases r with
        | nil => simp
        | cons b r =>
          obtain ⟨hb, _⟩ := hr
          rw [List.getElem?_eq_none (by omega)] at hb
          exact absurd hb (by simp)

theorem find_eq_some_iff (fuel : Nat) (header_id : Int) (known_blocks r : List block) :
    block_chain.find fuel header_id known_blocks = some r ↔
      IsPath known_blocks (find_if known_blocks (fun b => b.CurrentHash == header_id)) r ∧
        r.length < fuel := by
  rw [block_chain.find, findLoop_eq_some_iff]
  constructor
  · rintro ⟨r', h, hp, hl⟩
    simp at h
    subst h
    exact ⟨hp, hl⟩
  · rintro ⟨hp, hl⟩
    exact ⟨r, by simp, hp, hl⟩

theorem find_fuel_mono (fuel k : Nat) (header_id : Int) (known_blocks r : List block)
    (h : block_chain.find fuel header_id known_blocks = some r) :
    block_chain.find (fuel + k) header_id known_blocks = some r := by
  rw [find_eq_some_iff] at h ⊢
  exact ⟨h.1, by omega⟩

theorem find_if_lt_iff (known_blocks : List block) (pred : block → Bool) :
    find_if known_blocks pred < known_blocks.length ↔ ∃ b ∈ known_blocks, pred b = true := by
  unfold find_if
  exact List.findIdx_lt_length

theorem find_if_spec (known_blocks : List block) (pred : block → Bool) (b : block)
    (h : known_blocks[find_if known_blocks pred]? = some b) : pred b = true := by
  unfold find_if at h
  rcases List.getElem?_eq_some_iff.mp h with ⟨hlt, rfl⟩
  exact List.findIdx_getElem

theorem find_if_firstMatch (known_blocks : List block) (id : Int) (b : block)
    (h : known_blocks[find_if known_blocks (fun c => c.CurrentHash == id)]? = some b) :
    FirstMatch known_blocks id b := by
  refine ⟨_, h, ?_, ?_⟩
  · simpa using find_if_spec known_blocks _ b h
  · intro j' c hj hc
    rcases List.getElem?_eq_some_iff.mp hc with ⟨hlt, rfl⟩
    have := List.not_of_lt_findIdx hj
    simpa using this

theorem find_if_absent (known_blocks : List block) (id : Int)
    (h : ∀ b ∈ known_blocks, b.CurrentHash ≠ id) :
    find_if known_blocks (fun c => c.CurrentHash == id) = known_blocks.length := by
  unfold find_if
  apply List.findIdx_eq_length_of_false
  intro b hb
  simpa using h b hb

theorem IsPath_step (known_blocks : List block) (i : Nat) (r : List block)
    (hp : IsPath known_blocks i r) (k : Nat) (a b : block)
    (ha : r[k]? = some a) (hb : r[k + 1]? = some b) :
    known_blocks[find_if known_blocks (fun c => c.CurrentHash == a.PreviousHash)]? = some b := by
  induction r generalizing i k with
  | nil => simp at ha
  | cons x r ih =>
    obtain ⟨_, hr⟩ := hp
    cases k with
    | zero =>
      simp at ha
      subst ha
      cases r with
      | nil => simp at hb
      | cons y r =>
        simp at hb
        subst hb
        exact hr.1
    | succ k =>
      simp at ha hb
      exact ih _ hr k ha (by simpa using hb)

theorem IsPath_head (known_blocks : List block) (i : Nat) (r : List block)
    (hp : IsPath known_blocks i r) (b : block) (hb : r[0]? = some b) :
    known_blocks[i]? = some b := by
  cases r with
  | nil => simp at hb
  | cons x r =>
    simp at hb
    subst hb
    exact hp.1

/-! ## Claims about the result of `find` -/

/-- C4 (find absence): when `header_id` is not the current hash of any block
of the candidate list (the empty list included), `find` stops at the first
test of the loop condition and returns the empty sequence. -/
theorem find_absent (header_id : Int) (known_blocks : List block)
    (h : ∀ b ∈ known_blocks, b.CurrentHash ≠ header_id) (fuel : Nat) :
    block_chain.find (fuel + 1) header_id known_blocks = some [] := by
  rw [find_eq_some_iff, find_if_absent known_blocks header_id h]
  exact ⟨Nat.le_refl _, Nat.succ_pos _⟩

/-- Witness of C4: the identifier `12345` in the two-block chain of the
scenario. -/
theorem find_absent_witness :
    (∀ b ∈ (buildChain stdHash scenarioBatches).GetBlocks, b.CurrentHash ≠ 12345) ∧
    block_chain.find 1 12345 (buildChain stdHash scenarioBatches).GetBlocks = some [] :=
  ⟨by decide, find_absent 12345 (buildChain stdHash scenarioBatches).GetBlocks (by decide) 0⟩

/-- C7 (back-linked path): when `find` returns a non-empty result `r`, the
current hash of `r[0]` is `header_id`, and for every `k` with
`k + 1 < length r` the current hash of `r[k+1]` is the previous hash of
`r[k]`. -/
theorem find_back_linked (fuel : Nat) (header_id : Int) (known_blocks r : List block)
    (h : block_chain.find fuel header_id known_blocks = some r) (hne : r ≠ []) :
    (∃ b0, r[0]? = some b0 ∧ b0.CurrentHash = header_id) ∧
    ∀ k, k + 1 < r.length →
      ∃ a b, r[k]? = some a ∧ r[k + 1]? = some b ∧ b.CurrentHash = a.PreviousHash := by
  obtain ⟨hp, _⟩ := (find_eq_some_iff fuel header_id known_blocks r).mp h
  constructor
  · have h0 : 0 < r.length := List.length_pos.mpr hne
    refine ⟨r[0], by simp, ?_⟩
    have := find_if_spec known_blocks _ r[0] (IsPath_head known_blocks _ r hp r[0] (by simp))
    simpa using this
  · intro k hk
    have hk0 : k < r.length := by omega
    refine ⟨r[k], r[k + 1], by simp, by simp, ?_⟩
    have := find_if_spec known_blocks _ r[k + 1]
      (IsPath_step known_blocks _ r hp k r[k] r[k + 1] (by simp) (by simp))
    simpa using this

/-- Witness of C7: the search from the hash returned by the second `Add` of
the scenario, in the chain of the scenario. -/
theorem find_back_linked_witness :
    block_chain.find 3 (-1268575825) (buildChain stdHash scenarioBatches).GetBlocks
      = some (buildChain stdHash scenarioBatches).GetBlocks.reverse ∧
    (buildChain stdHash scenarioBatches).GetBlocks.reverse ≠ [] ∧
    (∃ b0, (buildChain stdHash scenarioBatches).GetBlocks.reverse[0]? = some b0 ∧
      b0.CurrentHash = -1268575825) :=
  ⟨by decide, by decide,
   (find_back_linked 3 (-1268575825) (buildChain stdHash scenarioBatches).GetBlocks
      (buildChain stdHash scenarioBatches).GetBlocks.reverse (by decide) (by decide)).1⟩

/-- C8 (tie-break): every element of the result of `find` is the candidate at
the smallest position whose current hash is the identifier sought at that
step, `header_id` for `r[0]` and the previous hash of `r[k]` for `r[k+1]`; in
particular every element of the result is a member of the candidate list. -/
theorem find_first_match (fuel : Nat) (header_id : Int) (known_blocks r : List block)
    (h : block_chain.find fuel header_id known_blocks = some r) :
    (∀ b, r[0]? = some b → FirstMatch known_blocks header_id b) ∧
    (∀ k a b, r[k]? = some a → r[k + 1]? = some b →
      FirstMatch known_blocks a.PreviousHash b) ∧
    ∀ b ∈ r, b ∈ known_blocks := by
  obtain ⟨hp, _⟩ := (find_eq_some_iff fuel header_id known_blocks r).mp h
  have h0 : ∀ b, r[0]? = some b → FirstMatch known_blocks header_id b := fun b hb =>
    find_if_firstMatch known_blocks header_id b (IsPath_head known_blocks _ r hp b hb)
  have h1 : ∀ k a b, r[k]? = some a → r[k + 1]? = some b →
      FirstMatch known_blocks a.PreviousHash b := fun k a b ha hb =>
    find_if_firstMatch known_blocks a.PreviousHash b (IsPath_step known_blocks _ r hp k a b ha hb)
  refine ⟨h0, h1, ?_⟩
  intro b hb
  obtain ⟨k, hk, rfl⟩ := List.getElem_of_mem hb
  have hmem : ∀ id, FirstMatch known_blocks id r[k] → r[k] ∈ known_blocks := by
    rintro id ⟨j, hj, _⟩
    exact List.getElem?_mem hj
  cases k with
  | zero => exact hmem _ (h0 _ (by simp))
  | succ k =>
    have hk0 : k < r.length := by omega
    exact hmem _ (h1 k r[k] r[k + 1] (by simp) (by simp))

/-- Witness of C8 with two candidates that share a current hash: in the chain
built from `collidingBatches` both blocks have current hash `-1662925062`, and
the search for it returns the block at position 0 only. -/
theorem find_first_match_witness :
    (∃ b0 b1, (buildChain stdHash collidingBatches).GetBlocks = [b0, b1] ∧
      b0.CurrentHash = -1662925062 ∧ b1.CurrentHash = -1662925062 ∧
      block_chain.find 2 (-1662925062) [b0, b1] = some [b0]) ∧
    ∀ b, [block.new stdHash (-1) ["B 10 BTC"]][0]? = some b →
      FirstMatch (buildChain stdHash collidingBatches).GetBlocks (-1662925062) b :=
  ⟨⟨block.new stdHash (-1) ["B 10 BTC"], block.new stdHash (-1662925062) ["S 862471499 BTC"],
      by decide, by decide, by decide, by decide⟩,
   (find_first_match 2 (-1662925062) (buildChain stdHash collidingBatches).GetBlocks
      [block.new stdHash (-1) ["B 10 BTC"]] (by decide)).1⟩

/-! ## Chains built by `Add`, termination of `find` -/

theorem buildChain_Linked (hasher : String → Nat) (batches : List (List String)) :
    Linked (buildChain hasher batches).chain :=
  ⟨buildChain_head hasher batches, buildChain_linked hasher batches⟩

theorem IsPath_unique (known_blocks : List block) (i : Nat) (r r' : List block)
    (h : IsPath known_blocks i r) (h' : IsPath known_blocks i r') : r = r' := by
  induction r generalizing i r' with
  | nil =>
    cases r' with
    | nil => rfl
    | cons b r' =>
      have h1 : known_blocks.length ≤ i := h
      have h2 := h'.1
      rw [List.getElem?_eq_none h1] at h2
      exact absurd h2 (by simp)
  | cons a r ih =>
    cases r' with
    | nil =>
      have h1 : known_blocks.length ≤ i := h'
      have h2 := h.1
      rw [List.getElem?_eq_none h1] at h2
      exact absurd h2 (by simp)
    | cons b r' =>
      have hab : a = b := Option.some.inj (h.1.symm.trans h'.1)
      subst hab
      rw [ih _ r' h.2 h'.2]

theorem IsPath_cons_nextPos (known_blocks : List block) (i : Nat) (hi : i < known_blocks.length)
    (r : List block) (hr : IsPath known_blocks (nextPos known_blocks i) r) :
    IsPath known_blocks i (known_blocks[i] :: r) := by
  refine ⟨by simp [hi], ?_⟩
  simpa [nextPos, hi] using hr

theorem find_deterministic (fuel fuel' : Nat) (header_id : Int) (known_blocks r r' : List block)
    (h : block_chain.find fuel header_id known_blocks = some r)
    (h' : block_chain.find fuel' header_id known_blocks = some r') : r = r' :=
  IsPath_unique known_blocks _ r r' ((find_eq_some_iff _ _ _ _).mp h).1
    ((find_eq_some_iff _ _ _ _).mp h').1

theorem find_eq_none_of_closed (known_blocks : List block) (S : Nat → Prop)
    (hS : ∀ i, S i → i < known_blocks.length ∧ S (nextPos known_blocks i))
    (header_id : Int)
    (h0 : S (find_if known_blocks (fun b => b.CurrentHash == header_id))) (fuel : Nat) :
    block_chain.find fuel header_id known_blocks = none := by
  have key : ∀ (r : List block) (i : Nat), S i → ¬ IsPath known_blocks i r := by
    intro r
    induction r with
    | nil =>
      intro i hi hp
      have h1 : known_blocks.length ≤ i := hp
      have := (hS i hi).1
      omega
    | cons b r ih =>
      intro i hi hp
      obtain ⟨hlt, hn⟩ := hS i hi
      obtain ⟨hb, hr⟩ := hp
      rw [List.getElem?_eq_getElem hlt] at hb
      have hb2 := Option.some.inj hb
      subst hb2
      apply ih _ hn
      simpa [nextPos, hlt] using hr
  cases hf : block_chain.find fuel header_id known_blocks with
  | none => rfl
  | some r => exact absurd ((find_eq_some_iff _ _ _ _).mp hf).1 (key r _ h0)

theorem nextPos_of_ge (known_blocks : List block) (i : Nat) (hi : known_blocks.length ≤ i) :
    nextPos known_blocks i = known_blocks.length := by
  simp [nextPos, Nat.not_lt.mpr hi]

theorem nextPos_le_length (known_blocks : List block) (i : Nat) :
    nextPos known_blocks i ≤ known_blocks.length := by
  unfold nextPos
  split
  · exact List.findIdx_le_length _
  · exact Nat.le_refl _

theorem IsPath_of_iterate (known_blocks : List block) (k i : Nat)
    (h : known_blocks.length ≤ (nextPos known_blocks)^[k] i) :
    ∃ r, IsPath known_blocks i r ∧ r.length ≤ k := by
  induction k generalizing i with
  | zero => exact ⟨[], h, Nat.le_refl _⟩
  | succ k ih =>
    by_cases hi : i < known_blocks.length
    · rw [Function.iterate_succ_apply] at h
      obtain ⟨r, hr, hl⟩ := ih _ h
      exact ⟨known_blocks[i] :: r, IsPath_cons_nextPos known_blocks i hi r hr, by simpa using hl⟩
    · exact ⟨[], Nat.not_lt.mp hi, Nat.zero_le _⟩

theorem find_of_IsPath (header_id : Int) (known_blocks r : List block) (fuel : Nat)
    (hp : IsPath known_blocks (find_if known_blocks (fun b => b.CurrentHash == header_id)) r)
    (hf : r.length < fuel) :
    block_chain.find fuel header_id known_blocks = some r :=
  (find_eq_some_iff fuel header_id known_blocks r).mpr ⟨hp, hf⟩

theorem iterate_nextPos_escapes (known_blocks : List block)
    (hacyc : ∀ i k, i < known_blocks.length → 1 ≤ k → (nextPos known_blocks)^[k] i ≠ i)
    (i : Nat) :
    ∃ k, k ≤ known_blocks.length ∧ known_blocks.length ≤ (nextPos known_blocks)^[k] i := by
  by_contra hcon
  push_neg at hcon
  let f : Fin (known_blocks.length + 1) → Fin known_blocks.length :=
    fun k => ⟨(nextPos known_blocks)^[k.1] i, hcon k.1 (Nat.le_of_lt_succ k.2)⟩
  obtain ⟨a, b, hab, hfab⟩ := Fintype.exists_ne_map_eq_of_card_lt f (by simp)
  have hval : (nextPos known_blocks)^[a.1] i = (nextPos known_blocks)^[b.1] i :=
    congrArg Fin.val hfab
  have hne : a.1 ≠ b.1 := fun h => hab (Fin.ext h)
  rcases Nat.lt_or_gt_of_ne hne with hlt | hgt
  · apply hacyc ((nextPos known_blocks)^[a.1] i) (b.1 - a.1)
      (hcon a.1 (Nat.le_of_lt_succ a.2)) (by omega)
    rw [← Function.iterate_add_apply, Nat.sub_add_cancel (Nat.le_of_lt hlt), hval]
  · apply hacyc ((nextPos known_blocks)^[b.1] i) (a.1 - b.1)
      (hcon b.1 (Nat.le_of_lt_succ b.2)) (by omega)
    rw [← Function.iterate_add_apply, Nat.sub_add_cancel (Nat.le_of_lt hgt), hval]

theorem find_if_le_of_hash (l : List block) (k : Nat) (hk : k < l.length) (id : Int)
    (h : l[k].CurrentHash = id) :
    find_if l (fun c => c.CurrentHash == id) ≤ k := by
  by_contra hcon
  have := List.not_of_lt_findIdx (Nat.lt_of_not_le hcon)
  simp [h] at this

theorem find_if_of_nodup (l : List block) (hnd : (l.map block.CurrentHash).Nodup)
    (i : Nat) (hi : i < l.length) :
    find_if l (fun c => c.CurrentHash == l[i].CurrentHash) = i := by
  unfold find_if
  rw [List.findIdx_eq hi]
  refine ⟨by simp, ?_⟩
  intro j hj
  have hj2 : j < l.length := Nat.lt_trans hj hi
  have := @List.Nodup.getElem_inj_iff _ _ hnd j (by simpa using hj2) i (by simpa using hi)
  simp only [List.getElem_map] at this
  have hne : ¬ l[j].CurrentHash = l[i].CurrentHash := fun h => by
    have := this.mp h
    omega
  simpa using hne

theorem Linked_nextPos_zero (l : List block) (hl : Linked l)
    (hs : ∀ b ∈ l, b.CurrentHash ≠ -1) (h0 : 0 < l.length) :
    nextPos l 0 = l.length := by
  have hp : l[0].PreviousHash = -1 := hl.1 _ (by simp [h0])
  simp only [nextPos, h0, dite_true, hp]
  exact find_if_absent l (-1) hs

theorem Linked_nextPos_succ (l : List block) (hl : Linked l) (k : Nat)
    (hk : k + 1 < l.length) : nextPos l (k + 1) ≤ k := by
  have hk0 : k < l.length := by omega
  have hp : l[k + 1].PreviousHash = l[k].CurrentHash := hl.2 k _ _ (by simp [hk0]) (by simp [hk])
  simp only [nextPos, hk, dite_true, hp]
  exact find_if_le_of_hash l k hk0 _ rfl

theorem Linked_path_bound (l : List block) (hl : Linked l)
    (hs : ∀ b ∈ l, b.CurrentHash ≠ -1) (i : Nat) :
    ∃ r, IsPath l i r ∧ r.length ≤ i + 1 := by
  induction i using Nat.strong_induction_on with
  | _ i ih =>
    by_cases hi : i < l.length
    · cases i with
      | zero =>
        refine ⟨[l[0]], IsPath_cons_nextPos l 0 hi [] ?_, by simp⟩
        show l.length ≤ nextPos l 0
        rw [Linked_nextPos_zero l hl hs hi]
      | succ k =>
        have hle := Linked_nextPos_succ l hl k hi
        obtain ⟨r, hr, hlen⟩ := ih (nextPos l (k + 1)) (by omega)
        exact ⟨l[k + 1] :: r, IsPath_cons_nextPos l (k + 1) hi r hr, by simp; omega⟩
    · exact ⟨[], Nat.not_lt.mp hi, Nat.zero_le _⟩

theorem Linked_nodup_path (l : List block) (hl : Linked l)
    (hnd : (l.map block.CurrentHash).Nodup)
    (hs : ∀ b ∈ l, b.CurrentHash ≠ -1) (i : Nat) (hi : i < l.length) :
    IsPath l i (l.take (i + 1)).reverse := by
  induction i with
  | zero =>
    have h1 : (l.take 1).reverse = [l[0]] := by
      rw [List.take_succ]
      simp [hi]
    rw [h1]
    refine IsPath_cons_nextPos l 0 hi [] ?_
    show l.length ≤ nextPos l 0
    rw [Linked_nextPos_zero l hl hs hi]
  | succ k ih =>
    have hk0 : k < l.length := by omega
    have h1 : (l.take (k + 1 + 1)).reverse = l[k + 1] :: (l.take (k + 1)).reverse := by
      rw [@List.take_succ _ l (k + 1)]
      simp [hi]
    rw [h1]
    refine IsPath_cons_nextPos l (k + 1) hi _ ?_
    have hp : l[k + 1].PreviousHash = l[k].CurrentHash :=
      hl.2 k _ _ (by simp [hk0]) (by simp [hi])
    have hn : nextPos l (k + 1) = k := by
      simp only [nextPos, hi, dite_true, hp]
      exact find_if_of_nodup l hnd k hk0
    rw [hn]
    exact ih hk0

theorem Linked_acyclic (l : List block) (hl : Linked l)
    (hs : ∀ b ∈ l, b.CurrentHash ≠ -1) (i k : Nat) (hi : i < l.length) (hk : 1 ≤ k) :
    (nextPos l)^[k] i ≠ i := by
  have step : ∀ j, j < l.length → nextPos l j < j ∨ nextPos l j = l.length := by
    intro j hj
    cases j with
    | zero => exact Or.inr (Linked_nextPos_zero l hl hs hj)
    | succ j => exact Or.inl (Nat.lt_succ_of_le (Linked_nextPos_succ l hl j hj))
  have key : ∀ n, (nextPos l)^[n + 1] i < i ∨ (nextPos l)^[n + 1] i = l.length := by
    intro n
    induction n with
    | zero => simpa using step i hi
    | succ n ih =>
      rw [Function.iterate_succ_apply']
      rcases ih with h | h
      · rcases step _ (Nat.lt_trans h hi) with h2 | h2
        · exact Or.inl (Nat.lt_trans h2 h)
        · exact Or.inr h2
      · rw [h]
        exact Or.inr (nextPos_of_ge l _ (Nat.le_refl _))
  obtain ⟨n, rfl⟩ : ∃ n, k = n + 1 := ⟨k - 1, by omega⟩
  rcases key n with h | h <;> omega

/-! ## Completeness and termination of `find` -/

/-- C2 as stated fails: in the chain built by `Add(["B 10 BTC"])` and
`Add(["S 862471499 BTC"])` both blocks have current hash `-1662925062`, and
`find` from the hash of the last block returns the first block only, for no
amount of fuel the reversed chain. -/
theorem find_completeness_counterexample :
    1 ≤ collidingBatches.length ∧
    (buildChain stdHash collidingBatches).GetBlocks.getLast?.map block.CurrentHash
      = some (-1662925062) ∧
    block_chain.find 2 (-1662925062) (buildChain stdHash collidingBatches).GetBlocks
      = some [block.new stdHash (-1) ["B 10 BTC"]] ∧
    ∀ fuel, block_chain.find fuel (-1662925062) (buildChain stdHash collidingBatches).GetBlocks
      ≠ some (buildChain stdHash collidingBatches).GetBlocks.reverse := by
  refine ⟨by decide, by decide, by decide, ?_⟩
  intro fuel h
  have h2 : block_chain.find 2 (-1662925062) (buildChain stdHash collidingBatches).GetBlocks
      = some [block.new stdHash (-1) ["B 10 BTC"]] := by decide
  have := find_deterministic _ _ _ _ _ _ h h2
  revert this
  decide

/-- C2 (find completeness, amended): for a chain built from an empty
`block_chain` by `N ≥ 1` successive `Add` calls whose blocks have pairwise
distinct current hashes, none equal to `-1`, `find` from the current hash of
the last block returns, with any fuel above `N`, a sequence of length `N`
that is the chain in reverse order. -/
theorem find_completeness (hasher : String → Nat) (batches : List (List String))
    (hN : 1 ≤ batches.length)
    (hnd : ((buildChain hasher batches).GetBlocks.map block.CurrentHash).Nodup)
    (hs : ∀ b ∈ (buildChain hasher batches).GetBlocks, b.CurrentHash ≠ -1) :
    ∃ last, (buildChain hasher batches).GetBlocks.getLast? = some last ∧
      ∀ fuel, batches.length < fuel →
        ∃ r, block_chain.find fuel last.CurrentHash (buildChain hasher batches).GetBlocks
            = some r ∧
          r.length = batches.length ∧
          r.reverse = (buildChain hasher batches).GetBlocks := by
  have hlen : (buildChain hasher batches).chain.length = batches.length :=
    buildChain_length hasher batches
  have hlast : batches.length - 1 < (buildChain hasher batches).chain.length := by omega
  simp only [block_chain.GetBlocks] at hnd hs ⊢
  refine ⟨(buildChain hasher batches).chain[batches.length - 1], ?_, ?_⟩
  · rw [List.getLast?_eq_getElem?, hlen, List.getElem?_eq_getElem hlast]
  · intro fuel hf
    refine ⟨(buildChain hasher batches).chain.reverse, ?_, by simp [hlen], by simp⟩
    apply find_of_IsPath
    · rw [find_if_of_nodup _ hnd _ hlast]
      have := Linked_nodup_path _ (buildChain_Linked hasher batches) hnd hs _ hlast
      rw [Nat.sub_add_cancel hN, ← hlen, List.take_length, hlen] at this
      exact this
    · simpa [hlen] using hf

/-- Witness of the amended C2 on the scenario of the specification. -/
theorem find_completeness_witness :
    ∃ last, (buildChain stdHash scenarioBatches).GetBlocks.getLast? = some last ∧
      ∀ fuel, scenarioBatches.length < fuel →
        ∃ r, block_chain.find fuel last.CurrentHash (buildChain stdHash scenarioBatches).GetBlocks
            = some r ∧
          r.length = scenarioBatches.length ∧
          r.reverse = (buildChain stdHash scenarioBatches).GetBlocks :=
  find_completeness stdHash scenarioBatches (by decide) (by decide) (by decide)

/-- C9 as stated fails: `cyclicBlocks` holds two constructed blocks that refer
to each other, and `find` from the current hash of the first of them never
reaches the end of its loop, whatever the fuel. -/
theorem find_termination_counterexample :
    (∃ A B, cyclicBlocks = [A, B] ∧ A.CurrentHash = 142461783 ∧
      A.PreviousHash = B.CurrentHash ∧ B.PreviousHash = A.CurrentHash) ∧
    ∀ fuel, block_chain.find fuel 142461783 cyclicBlocks = none := by
  refine ⟨⟨_, _, rfl, by decide, by decide, by decide⟩, ?_⟩
  intro fuel
  apply find_eq_none_of_closed cyclicBlocks (fun i => i < 2)
  · intro i hi
    have hi2 : i < 2 := hi
    interval_cases i
    · exact ⟨by decide, by decide⟩
    · exact ⟨by decide, by decide⟩
  · show find_if cyclicBlocks (fun b => b.CurrentHash == 142461783) < 2
    decide

/-- C9 (termination, amended): on every candidate list in which no position
is reached again from itself by following back-references (from a position
to the first position whose current hash is the previous hash of its block),
`find` terminates for every `header_id`, within `length + 1` evaluations of
the loop condition. -/
theorem find_terminates_of_acyclic (header_id : Int) (known_blocks : List block)
    (hacyc : ∀ i k, i < known_blocks.length → 1 ≤ k → (nextPos known_blocks)^[k] i ≠ i) :
    ∃ r, block_chain.find (known_blocks.length + 1) header_id known_blocks = some r := by
  obtain ⟨k, hk, hesc⟩ := iterate_nextPos_escapes known_blocks hacyc
    (find_if known_blocks (fun b => b.CurrentHash == header_id))
  obtain ⟨r, hr, hlen⟩ := IsPath_of_iterate known_blocks k _ hesc
  exact ⟨r, find_of_IsPath header_id known_blocks r _ hr (by omega)⟩

/-- Witness of the amended C9: the chain of the scenario, searched from the
hash of its last block. -/
theorem find_terminates_of_acyclic_witness :
    ∃ r, block_chain.find ((buildChain stdHash scenarioBatches).chain.length + 1)
      (-1268575825) (buildChain stdHash scenarioBatches).chain = some r :=
  find_terminates_of_acyclic (-1268575825) (buildChain stdHash scenarioBatches).chain
    (Linked_acyclic _ (buildChain_Linked stdHash scenarioBatches) (by decide))

/-- C10 as stated fails: the chain built by the single call
`Add(["B 436005874 BTC"])` consists of one block whose previous and current
hash are both `-1`, and `find(-1, GetBlocks())` never reaches the end of its
loop, whatever the fuel. -/
theorem find_built_termination_counterexample :
    (buildChain stdHash sentinelBatches).GetBlocks
      = [block.new stdHash (-1) ["B 436005874 BTC"]] ∧
    (block.new stdHash (-1) ["B 436005874 BTC"]).PreviousHash = -1 ∧
    (block.new stdHash (-1) ["B 436005874 BTC"]).CurrentHash = -1 ∧
    ∀ fuel, block_chain.find fuel (-1) (buildChain stdHash sentinelBatches).GetBlocks = none := by
  refine ⟨by decide, by decide, by decide, ?_⟩
  intro fuel
  apply find_eq_none_of_closed (buildChain stdHash sentinelBatches).GetBlocks (fun i => i = 0)
  · intro i hi
    have hi2 : i = 0 := hi
    subst hi2
    exact ⟨by decide, by decide⟩
  · show find_if (buildChain stdHash sentinelBatches).GetBlocks
      (fun b => b.CurrentHash == -1) = 0
    decide

/-- C10 (termination on built chains, amended): for every chain built from an
empty `block_chain` by `Add` calls only in which no block has current hash
`-1`, and for every `header_id`, `find(header_id, GetBlocks())` terminates,
within `N + 1` evaluations of the loop condition for a chain of `N` blocks. -/
theorem find_terminates_on_built (hasher : String → Nat) (batches : List (List String))
    (hs : ∀ b ∈ (buildChain hasher batches).GetBlocks, b.CurrentHash ≠ -1)
    (header_id : Int) :
    ∃ r, block_chain.find (batches.length + 1) header_id
      (buildChain hasher batches).GetBlocks = some r := by
  have hlen : (buildChain hasher batches).chain.length = batches.length :=
    buildChain_length hasher batches
  simp only [block_chain.GetBlocks] at hs ⊢
  obtain ⟨r, hr, hb⟩ := Linked_path_bound _ (buildChain_Linked hasher batches) hs
    (find_if (buildChain hasher batches).chain (fun b => b.CurrentHash == header_id))
  by_cases hi : find_if (buildChain hasher batches).chain
      (fun b => b.CurrentHash == header_id) < (buildChain hasher batches).chain.length
  · exact ⟨r, find_of_IsPath header_id _ r _ hr (by omega)⟩
  · exact ⟨[], find_of_IsPath header_id _ [] _ (Nat.not_lt.mp hi) (by simp)⟩

/-- Witness of the amended C10: the chain of the scenario, searched from
`-1268575825`, the current hash of its last block; the loop body runs twice
and the search returns both blocks. -/
theorem find_terminates_on_built_witness :
    (∀ b ∈ (buildChain stdHash scenarioBatches).GetBlocks, b.CurrentHash ≠ -1) ∧
    (buildChain stdHash scenarioBatches).GetBlocks.getLast?.map block.CurrentHash
      = some (-1268575825) ∧
    (∃ r, block_chain.find (scenarioBatches.length + 1) (-1268575825)
      (buildChain stdHash scenarioBatches).GetBlocks = some r) ∧
    block_chain.find (scenarioBatches.length + 1) (-1268575825)
      (buildChain stdHash scenarioBatches).GetBlocks
        = some (buildChain stdHash scenarioBatches).GetBlocks.reverse ∧
    (buildChain stdHash scenarioBatches).GetBlocks.reverse.length = 2 :=
  ⟨by decide, by decide,
   find_terminates_on_built stdHash scenarioBatches (by decide) (-1268575825),
   by decide, by decide⟩

/-! ## The positions visited by `find` -/

theorem findLoop_step (known_blocks : List block) (fuel i : Nat) (acc : List block)
    (hi : i < known_blocks.length) :
    findLoop known_blocks (fuel + 1) i acc
      = findLoop known_blocks fuel (nextPos known_blocks i) (acc ++ [known_blocks[i]]) := by
  rw [findLoop, dif_pos hi]
  simp [nextPos, hi]

theorem IsPath_cons_inv (known_blocks : List block) (i : Nat) (b : block) (r : List block)
    (h : IsPath known_blocks i (b :: r)) :
    i < known_blocks.length ∧ known_blocks[i]? = some b ∧
      IsPath known_blocks (nextPos known_blocks i) r := by
  obtain ⟨hb, hr⟩ := h
  rcases List.getElem?_eq_some_iff.mp hb with ⟨hlt, hb2⟩
  refine ⟨hlt, hb, ?_⟩
  subst hb2
  simpa [nextPos, hlt] using hr

theorem IsPath_iterate (known_blocks : List block) (i : Nat) (r : List block)
    (h : IsPath known_blocks i r) :
    (∀ k, k < r.length → (nextPos known_blocks)^[k] i < known_blocks.length ∧
      r[k]? = known_blocks[(nextPos known_blocks)^[k] i]?) ∧
    known_blocks.length ≤ (nextPos known_blocks)^[r.length] i := by
  induction r generalizing i with
  | nil => exact ⟨fun k hk => absurd hk (by simp), h⟩
  | cons b r ih =>
    obtain ⟨hlt, hb, hr⟩ := IsPath_cons_inv known_blocks i b r h
    obtain ⟨ih1, ih2⟩ := ih _ hr
    constructor
    · intro k hk
      cases k with
      | zero => exact ⟨hlt, by simpa using hb.symm⟩
      | succ k =>
        rw [Function.iterate_succ_apply]
        have := ih1 k (by simpa using hk)
        exact ⟨this.1, by simpa using this.2⟩
    · rw [List.length_cons, Function.iterate_succ_apply]
      exact ih2

theorem IsPath_last (known_blocks : List block) (i : Nat) (r : List block)
    (h : IsPath known_blocks i r) (b : block) (hb : r.getLast? = some b) :
    known_blocks.length ≤
      find_if known_blocks (fun c => c.CurrentHash == b.PreviousHash) := by
  induction r generalizing i with
  | nil => simp at hb
  | cons a r ih =>
    cases r with
    | nil =>
      simp at hb
      subst hb
      exact h.2
    | cons a' r' =>
      rw [List.getLast?_cons_cons] at hb
      exact ih _ h.2 hb

/-! ## Claims about determinism, maximality and the hashed text -/

/-- C12 (determinism): two blocks constructed from the same previous hash and
the same transaction list have equal current hash, previous hash and
transactions; and the block that `Add` appends is the same for two chains
whose last blocks have the same current hash, whatever else the chains hold. -/
theorem block_deterministic (hasher : String → Nat) (p p' : Int) (t t' : List String)
    (hp : p = p') (ht : t = t') :
    (block.new hasher p t).CurrentHash = (block.new hasher p' t').CurrentHash ∧
    (block.new hasher p t).PreviousHash = (block.new hasher p' t').PreviousHash ∧
    (block.new hasher p t).Transactions = (block.new hasher p' t').Transactions ∧
    ∀ bc bc' : block_chain, bc.GetBlocks.getLast?.map block.CurrentHash
        = bc'.GetBlocks.getLast?.map block.CurrentHash →
      (bc.Add hasher t).1.GetBlocks.getLast? = (bc'.Add hasher t').1.GetBlocks.getLast? ∧
      (bc.Add hasher t).2 = (bc'.Add hasher t').2 := by
  subst hp ht
  refine ⟨rfl, rfl, rfl, ?_⟩
  intro bc bc' h
  have hth : tailHash bc.chain = tailHash bc'.chain := by
    rw [tailHash_eq_getLast_opt, tailHash_eq_getLast_opt]
    simp only [block_chain.GetBlocks] at h
    cases h1 : bc.chain.getLast? <;> cases h2 : bc'.chain.getLast? <;> simp_all
  constructor
  · simp only [block_chain.GetBlocks, Add_chain, List.getLast?_append, hth]
    simp
  · rw [Add_snd, Add_snd, hth]

/-- Witness of C12: the first block of the header listing, built twice, and
`Add` of its batch to two empty chains. -/
theorem block_deterministic_witness :
    (block.new stdHash (-1) ["B 47 EOS", "B 31 TRX"]).CurrentHash
      = (block.new stdHash (-1) ["B 47 EOS", "B 31 TRX"]).CurrentHash ∧
    (block.new stdHash (-1) ["B 47 EOS", "B 31 TRX"]).CurrentHash = toInt32 0xD449ED84 :=
  ⟨(block_deterministic stdHash (-1) (-1) ["B 47 EOS", "B 31 TRX"] ["B 47 EOS", "B 31 TRX"]
      rfl rfl).1, by decide⟩

/-- C13 (maximality of the path): when `find` returns a non-empty result, no
block of the candidate list has as current hash the previous hash of the last
block of the result. -/
theorem find_maximal (fuel : Nat) (header_id : Int) (known_blocks r : List block)
    (h : block_chain.find fuel header_id known_blocks = some r) (hne : r ≠ []) :
    ∃ last, r.getLast? = some last ∧
      ∀ c ∈ known_blocks, c.CurrentHash ≠ last.PreviousHash := by
  obtain ⟨hp, _⟩ := (find_eq_some_iff fuel header_id known_blocks r).mp h
  refine ⟨r.getLast hne, List.getLast?_eq_getLast _ hne, ?_⟩
  intro c hc heq
  have hle := IsPath_last known_blocks _ r hp _ (List.getLast?_eq_getLast _ hne)
  have hlt := (find_if_lt_iff known_blocks
    (fun c => c.CurrentHash == (r.getLast hne).PreviousHash)).mpr ⟨c, hc, by simpa using heq⟩
  omega

/-- Witness of C13: the search of the scenario, which ends at the first block,
whose previous hash is the sentinel. -/
theorem find_maximal_witness :
    block_chain.find 3 (-1268575825) (buildChain stdHash scenarioBatches).GetBlocks
      = some (buildChain stdHash scenarioBatches).GetBlocks.reverse ∧
    ∃ last, (buildChain stdHash scenarioBatches).GetBlocks.reverse.getLast? = some last ∧
      ∀ c ∈ (buildChain stdHash scenarioBatches).GetBlocks,
        c.CurrentHash ≠ last.PreviousHash :=
  ⟨by decide,
   find_maximal 3 (-1268575825) (buildChain stdHash scenarioBatches).GetBlocks
      (buildChain stdHash scenarioBatches).GetBlocks.reverse (by decide) (by decide)⟩

/-- C18 (the hash sees only the concatenation): blocks constructed from the
same previous hash and from transaction lists with equal in-order
concatenations have equal current hashes, and so do blocks constructed from
`(p, t)` and `(q, u)` whenever the decimal text of `p` followed by the
concatenation of `t` equals the decimal text of `q` followed by the
concatenation of `u`. -/
theorem hash_of_concatenation (hasher : String → Nat) (p q : Int) (t u : List String) :
    (String.join t = String.join u →
      (block.new hasher p t).CurrentHash = (block.new hasher p u).CurrentHash) ∧
    (to_string p ++ String.join t = to_string q ++ String.join u →
      (block.new hasher p t).CurrentHash = (block.new hasher q u).CurrentHash) := by
  constructor
  · intro h
    show GetHash hasher p t = GetHash hasher p u
    rw [GetHash, GetHash, accumulate_eq, accumulate_eq, h]
  · intro h
    show GetHash hasher p t = GetHash hasher q u
    rw [GetHash, GetHash, accumulate_eq, accumulate_eq, h]

/-- Witness of C18: the examples of the claim, for the hasher `stdHash`. -/
theorem hash_of_concatenation_witness :
    (block.new stdHash 7 ["ab", "c"]).CurrentHash = (block.new stdHash 7 ["a", "bc"]).CurrentHash ∧
    (block.new stdHash 7 ["ab", "c"]).CurrentHash = (block.new stdHash 7 ["abc"]).CurrentHash ∧
    (block.new stdHash 1 ["2x"]).CurrentHash = (block.new stdHash 12 ["x"]).CurrentHash :=
  ⟨(hash_of_concatenation stdHash 7 7 ["ab", "c"] ["a", "bc"]).1 (by decide),
   (hash_of_concatenation stdHash 7 7 ["ab", "c"] ["abc"]).1 (by decide),
   (hash_of_concatenation stdHash 1 12 ["2x"] ["x"]).2 (by decide)⟩

/-! ## The sentinel, cycles, and reconstruction from a position -/

theorem FirstMatch_find_if (known_blocks : List block) (id : Int) (b : block)
    (h : FirstMatch known_blocks id b) :
    known_blocks[find_if known_blocks (fun c => c.CurrentHash == id)]? = some b := by
  obtain ⟨j, hj, hid, hfirst⟩ := h
  rcases List.getElem?_eq_some_iff.mp hj with ⟨hlt, hb⟩
  have : find_if known_blocks (fun c => c.CurrentHash == id) = j := by
    unfold find_if
    rw [List.findIdx_eq hlt]
    refine ⟨by simp [hb, hid], ?_⟩
    intro j' hj'
    have := hfirst j' known_blocks[j'] hj' (by simp [Nat.lt_trans hj' hlt])
    simpa using this
  rw [this]
  exact hj

/-- C11 as stated fails: the constructed block `block(0, ["B 3087927869 BTC"])`
has current hash `-1`, and `find(-1, ...)` on the list that holds this block
returns the block, not the empty sequence. -/
theorem find_sentinel_counterexample :
    sentinelHashedBlock = block.new stdHash 0 ["B 3087927869 BTC"] ∧
    sentinelHashedBlock.CurrentHash = -1 ∧
    block_chain.find 2 (-1) [sentinelHashedBlock] = some [sentinelHashedBlock] ∧
    ∀ fuel, block_chain.find fuel (-1) [sentinelHashedBlock] ≠ some [] := by
  refine ⟨rfl, by decide, by decide, ?_⟩
  intro fuel h
  have h2 : block_chain.find 2 (-1) [sentinelHashedBlock] = some [sentinelHashedBlock] := by
    decide
  have := find_deterministic _ _ _ _ _ _ h h2
  exact absurd this (by simp)

/-- C11 (sentinel lookup, amended): for every candidate list in which no block
has current hash `-1`, `find(-1, candidates)` returns the empty sequence. -/
theorem find_sentinel (known_blocks : List block)
    (h : ∀ b ∈ known_blocks, b.CurrentHash ≠ -1) (fuel : Nat) :
    block_chain.find (fuel + 1) (-1) known_blocks = some [] := by
  rw [find_eq_some_iff, find_if_absent known_blocks (-1) h]
  exact ⟨Nat.le_refl _, Nat.succ_pos _⟩

/-- Witness of the amended C11: the ten blocks of the header listing. -/
theorem find_sentinel_witness :
    (∀ b ∈ (buildChain stdHash headerBatches).GetBlocks, b.CurrentHash ≠ -1) ∧
    block_chain.find 1 (-1) (buildChain stdHash headerBatches).GetBlocks = some [] :=
  ⟨by decide, find_sentinel (buildChain stdHash headerBatches).GetBlocks (by decide) 0⟩

/-- C14 (cyclic input loops): when the candidate list holds blocks `A` and `B`,
each the first block of the list with its current hash, such that the
previous hash of each is the current hash of the other, `find` from the
current hash of `A` returns for no amount of fuel, and its iterator is at `A`
after every even number of passes through the loop body and at `B` after
every odd number. -/
theorem find_cycle_loops (known_blocks : List block) (A B : block)
    (hA : FirstMatch known_blocks A.CurrentHash A)
    (hB : FirstMatch known_blocks B.CurrentHash B)
    (hAB : A.PreviousHash = B.CurrentHash) (hBA : B.PreviousHash = A.CurrentHash) :
    (∀ fuel, block_chain.find fuel A.CurrentHash known_blocks = none) ∧
    ∀ k, known_blocks[walkPos known_blocks A.CurrentHash k]?
      = some (if k % 2 = 0 then A else B) := by
  have hiA := FirstMatch_find_if known_blocks _ A hA
  have hiB := FirstMatch_find_if known_blocks _ B hB
  rcases List.getElem?_eq_some_iff.mp hiA with ⟨hltA, heA⟩
  rcases List.getElem?_eq_some_iff.mp hiB with ⟨hltB, heB⟩
  have hnA : nextPos known_blocks (find_if known_blocks (fun c => c.CurrentHash == A.CurrentHash))
      = find_if known_blocks (fun c => c.CurrentHash == B.CurrentHash) := by
    simp only [nextPos, hltA, dite_true, heA, hAB]
  have hnB : nextPos known_blocks (find_if known_blocks (fun c => c.CurrentHash == B.CurrentHash))
      = find_if known_blocks (fun c => c.CurrentHash == A.CurrentHash) := by
    simp only [nextPos, hltB, dite_true, heB, hBA]
  constructor
  · intro fuel
    apply find_eq_none_of_closed known_blocks
      (fun i => i = find_if known_blocks (fun c => c.CurrentHash == A.CurrentHash) ∨
        i = find_if known_blocks (fun c => c.CurrentHash == B.CurrentHash))
    · rintro i (rfl | rfl)
      · exact ⟨hltA, Or.inr hnA⟩
      · exact ⟨hltB, Or.inl hnB⟩
    · exact Or.inl rfl
  · have key : ∀ k, walkPos known_blocks A.CurrentHash k
        = if k % 2 = 0 then find_if known_blocks (fun c => c.CurrentHash == A.CurrentHash)
          else find_if known_blocks (fun c => c.CurrentHash == B.CurrentHash) := by
      intro k
      induction k with
      | zero => rfl
      | succ k ih =>
        unfold walkPos at ih ⊢
        rw [Function.iterate_succ_apply', ih]
        rcases Nat.mod_two_eq_zero_or_one k with h0 | h1
        · have : (k + 1) % 2 = 1 := by omega
          simp [h0, this, hnA]
        · have : (k + 1) % 2 = 0 := by omega
          simp [h1, this, hnB]
    intro k
    rw [key k]
    split
    · exact hiA
    · exact hiB

/-- Witness of C14: the two constructed blocks of `cyclicBlocks`. -/
theorem find_cycle_loops_witness :
    (∀ fuel, block_chain.find fuel 142461783 cyclicBlocks = none) ∧
    ∀ k, cyclicBlocks[walkPos cyclicBlocks 142461783 k]?
      = some (if k % 2 = 0 then block.new stdHash 1 ["B 10 BTC"]
          else block.new stdHash 142461783 ["S 256842520 ETH"]) :=
  find_cycle_loops cyclicBlocks (block.new stdHash 1 ["B 10 BTC"])
    (block.new stdHash 142461783 ["S 256842520 ETH"])
    ⟨0, by decide, rfl, fun j' _ hj => absurd hj (Nat.not_lt_zero j')⟩
    ⟨1, by decide, rfl, fun j' c hj hc => by
      have hj0 : j' = 0 := by omega
      subst hj0
      have hc2 : block.new stdHash 1 ["B 10 BTC"] = c := by simpa [cyclicBlocks] using hc
      subst hc2
      decide⟩
    (by decide) (by decide)

theorem walkPos_succ (known_blocks : List block) (header_id : Int) (k : Nat) :
    walkPos known_blocks header_id (k + 1)
      = nextPos known_blocks (walkPos known_blocks header_id k) := by
  unfold walkPos
  rw [Function.iterate_succ_apply']

theorem find_walk (fuel : Nat) (header_id : Int) (known_blocks r : List block)
    (h : block_chain.find fuel header_id known_blocks = some r) :
    (∀ k, k < r.length → walkPos known_blocks header_id k < known_blocks.length ∧
      r[k]? = known_blocks[walkPos known_blocks header_id k]?) ∧
    known_blocks.length ≤ walkPos known_blocks header_id r.length :=
  IsPath_iterate known_blocks _ r ((find_eq_some_iff _ _ _ _).mp h).1

theorem find_walk_injective (fuel : Nat) (header_id : Int) (known_blocks r : List block)
    (h : block_chain.find fuel header_id known_blocks = some r) (a b : Nat)
    (hab : a < b) (hb : b < r.length)
    (heq : walkPos known_blocks header_id a = walkPos known_blocks header_id b) : False := by
  obtain ⟨hin, hout⟩ := find_walk fuel header_id known_blocks r h
  have hshift : walkPos known_blocks header_id (r.length - b + a)
      = walkPos known_blocks header_id (r.length - b + b) := by
    unfold walkPos at heq ⊢
    rw [Function.iterate_add_apply, Function.iterate_add_apply, heq]
  rw [Nat.sub_add_cancel (Nat.le_of_lt hb)] at hshift
  have := (hin (r.length - b + a) (by omega)).1
  omega

/-- C15 (reconstruction from any position): for a chain built from an empty
`block_chain` by `N ≥ 1` successive `Add` calls whose blocks have pairwise
distinct current hashes, none equal to `-1`, and for every position `i < N`,
`find` from the current hash of block `i` terminates (any fuel above `i + 1`
suffices) and returns the `i + 1` blocks `blocks[i], blocks[i-1], ..., blocks[0]`. -/
theorem find_from_position (hasher : String → Nat) (batches : List (List String))
    (_hN : 1 ≤ batches.length)
    (hnd : ((buildChain hasher batches).GetBlocks.map block.CurrentHash).Nodup)
    (hs : ∀ b ∈ (buildChain hasher batches).GetBlocks, b.CurrentHash ≠ -1)
    (i : Nat) (hi : i < batches.length) :
    ∃ bi, (buildChain hasher batches).GetBlocks[i]? = some bi ∧
      ∀ fuel, i + 1 < fuel →
        ∃ r, block_chain.find fuel bi.CurrentHash (buildChain hasher batches).GetBlocks
            = some r ∧
          r = ((buildChain hasher batches).GetBlocks.take (i + 1)).reverse ∧
          r.length = i + 1 ∧
          ∀ k, k ≤ i → r[k]? = (buildChain hasher batches).GetBlocks[i - k]? := by
  have hlen : (buildChain hasher batches).chain.length = batches.length :=
    buildChain_length hasher batches
  have hil : i < (buildChain hasher batches).chain.length := by omega
  simp only [block_chain.GetBlocks] at hnd hs ⊢
  refine ⟨(buildChain hasher batches).chain[i], List.getElem?_eq_getElem hil, ?_⟩
  intro fuel hf
  have hrl : (((buildChain hasher batches).chain.take (i + 1)).reverse).length = i + 1 := by
    rw [List.length_reverse, List.length_take]
    omega
  refine ⟨_, ?_, rfl, hrl, ?_⟩
  · apply find_of_IsPath
    · rw [find_if_of_nodup _ hnd _ hil]
      exact Linked_nodup_path _ (buildChain_Linked hasher batches) hnd hs _ hil
    · omega
  · intro k hk
    rw [List.getElem?_reverse (by rw [List.length_take]; omega), List.length_take,
      List.getElem?_take_of_lt (by omega)]
    congr 1
    omega

/-- Witness of C15: position 1 of the chain of the scenario. -/
theorem find_from_position_witness :
    ∃ bi, (buildChain stdHash scenarioBatches).GetBlocks[1]? = some bi ∧
      ∀ fuel, 1 + 1 < fuel →
        ∃ r, block_chain.find fuel bi.CurrentHash (buildChain stdHash scenarioBatches).GetBlocks
            = some r ∧
          r = ((buildChain stdHash scenarioBatches).GetBlocks.take (1 + 1)).reverse ∧
          r.length = 1 + 1 ∧
          ∀ k, k ≤ 1 → r[k]? = (buildChain stdHash scenarioBatches).GetBlocks[1 - k]? :=
  find_from_position stdHash scenarioBatches (by decide) (by decide) (by decide) 1 (by decide)

/-- C17 (result size bound): when `find` returns `r`, the `k`-th block of `r`
is the candidate at the position of the iterator after `k` passes through the
loop body, these positions are pairwise distinct, and the length of `r` is at
most the length of the candidate list. -/
theorem find_result_bound (fuel : Nat) (header_id : Int) (known_blocks r : List block)
    (h : block_chain.find fuel header_id known_blocks = some r) :
    (∀ k, k < r.length → walkPos known_blocks header_id k < known_blocks.length ∧
      r[k]? = known_blocks[walkPos known_blocks header_id k]?) ∧
    (∀ a b, a < r.length → b < r.length →
      walkPos known_blocks header_id a = walkPos known_blocks header_id b → a = b) ∧
    r.length ≤ known_blocks.length := by
  have hw := find_walk fuel header_id known_blocks r h
  have hinj : ∀ a b, a < r.length → b < r.length →
      walkPos known_blocks header_id a = walkPos known_blocks header_id b → a = b := by
    intro a b ha hb heq
    rcases Nat.lt_trichotomy a b with hlt | rfl | hgt
    · exact (find_walk_injective fuel header_id known_blocks r h a b hlt hb heq).elim
    · rfl
    · exact (find_walk_injective fuel header_id known_blocks r h b a hgt ha heq.symm).elim
  refine ⟨hw.1, hinj, ?_⟩
  let f : Fin r.length → Fin known_blocks.length :=
    fun k => ⟨walkPos known_blocks header_id k.1, (hw.1 k.1 k.2).1⟩
  have hf : Function.Injective f := by
    intro a b hab
    exact Fin.ext (hinj a.1 b.1 a.2 b.2 (congrArg Fin.val hab))
  simpa using Fintype.card_le_of_injective f hf

/-- Witness of C17: the search in the chain built from `collidingBatches`. -/
theorem find_result_bound_witness :
    block_chain.find 2 (-1662925062) (buildChain stdHash collidingBatches).GetBlocks
      = some [block.new stdHash (-1) ["B 10 BTC"]] ∧
    [block.new stdHash (-1) ["B 10 BTC"]].length
      ≤ (buildChain stdHash collidingBatches).GetBlocks.length :=
  ⟨by decide,
   (find_result_bound 2 (-1662925062) (buildChain stdHash collidingBatches).GetBlocks
      [block.new stdHash (-1) ["B 10 BTC"]] (by decide)).2.2⟩

theorem Linked_closed_of_sentinel (l : List block) (hl : Linked l)
    (hs : ∃ b ∈ l, b.CurrentHash = -1) (i : Nat) (hi : i < l.length) :
    nextPos l i < l.length := by
  cases i with
  | zero =>
    have hp : l[0].PreviousHash = -1 := hl.1 _ (by simp [hi])
    simp only [nextPos, hi, dite_true, hp]
    rw [find_if_lt_iff]
    obtain ⟨b, hb, hc⟩ := hs
    exact ⟨b, hb, by simpa using hc⟩
  | succ k =>
    have := Linked_nextPos_succ l hl k hi
    omega

/-- C16 (termination on a built chain is decided by the sentinel): for a chain
built from an empty `block_chain` by `Add` calls and a `header_id` that is the
current hash of some block of the chain, `find(header_id, GetBlocks())`
terminates if and only if no block of the chain has current hash `-1`; when
it returns `r`, the `k`-th block of `r` is the block at the position of the
iterator after `k` passes, these positions are strictly decreasing, `r` is not
empty and its last block is `blocks[0]`. -/
theorem find_built_terminates_iff (hasher : String → Nat) (batches : List (List String))
    (header_id : Int)
    (hh : ∃ b ∈ (buildChain hasher batches).GetBlocks, b.CurrentHash = header_id) :
    ((∃ fuel r, block_chain.find fuel header_id (buildChain hasher batches).GetBlocks = some r)
      ↔ ∀ b ∈ (buildChain hasher batches).GetBlocks, b.CurrentHash ≠ -1) ∧
    ∀ fuel r, block_chain.find fuel header_id (buildChain hasher batches).GetBlocks = some r →
      (∀ k, k < r.length →
        r[k]? = (buildChain hasher batches).GetBlocks[
          walkPos (buildChain hasher batches).GetBlocks header_id k]?) ∧
      (∀ k, k + 1 < r.length →
        walkPos (buildChain hasher batches).GetBlocks header_id (k + 1)
          < walkPos (buildChain hasher batches).GetBlocks header_id k) ∧
      r ≠ [] ∧
      r.getLast? = (buildChain hasher batches).GetBlocks[0]? := by
  simp only [block_chain.GetBlocks] at hh ⊢
  have hl := buildChain_Linked hasher batches
  have hi0 : find_if (buildChain hasher batches).chain (fun b => b.CurrentHash == header_id)
      < (buildChain hasher batches).chain.length := by
    rw [find_if_lt_iff]
    obtain ⟨b, hb, hc⟩ := hh
    exact ⟨b, hb, by simpa using hc⟩
  have hnosent : ∀ fuel r,
      block_chain.find fuel header_id (buildChain hasher batches).chain = some r →
      ∀ b ∈ (buildChain hasher batches).chain, b.CurrentHash ≠ -1 := by
    intro fuel r hr b hb hc
    have := find_eq_none_of_closed (buildChain hasher batches).chain
      (fun i => i < (buildChain hasher batches).chain.length)
      (fun i hi => ⟨hi, Linked_closed_of_sentinel _ hl ⟨b, hb, hc⟩ i hi⟩) header_id hi0 fuel
    rw [this] at hr
    exact absurd hr (by simp)
  constructor
  · constructor
    · rintro ⟨fuel, r, hr⟩
      exact hnosent fuel r hr
    · intro hs
      obtain ⟨r, hr, _⟩ := Linked_path_bound _ hl hs
        (find_if (buildChain hasher batches).chain (fun b => b.CurrentHash == header_id))
      exact ⟨r.length + 1, r, find_of_IsPath header_id _ r _ hr (Nat.lt_succ_self _)⟩
  · intro fuel r hr
    have hs := hnosent fuel r hr
    obtain ⟨hin, hout⟩ := find_walk fuel header_id _ r hr
    have hne : r ≠ [] := by
      rintro rfl
      have : (buildChain hasher batches).chain.length ≤ walkPos _ header_id 0 := hout
      unfold walkPos at this
      simp only [Function.iterate_zero, id_eq] at this
      omega
    have hpos : 0 < r.length := List.length_pos.mpr hne
    refine ⟨fun k hk => (hin k hk).2, ?_, hne, ?_⟩
    · intro k hk
      have h1 := (hin (k + 1) hk).1
      have h0 := (hin k (by omega)).1
      rw [walkPos_succ] at h1 ⊢
      cases hw : walkPos (buildChain hasher batches).chain header_id k with
      | zero =>
        rw [hw] at h1 h0
        rw [Linked_nextPos_zero _ hl hs h0] at h1
        omega
      | succ j =>
        rw [hw] at h0
        have := Linked_nextPos_succ _ hl j h0
        omega
    · have hlast := hin (r.length - 1) (by omega)
      have hout2 : (buildChain hasher batches).chain.length
          ≤ walkPos (buildChain hasher batches).chain header_id (r.length - 1 + 1) := by
        rw [Nat.sub_add_cancel hpos]
        exact hout
      rw [walkPos_succ] at hout2
      rw [List.getLast?_eq_getElem?, hlast.2]
      cases hw : walkPos (buildChain hasher batches).chain header_id (r.length - 1) with
      | zero => rfl
      | succ j =>
        rw [hw] at hout2
        have h0 := hlast.1
        rw [hw] at h0
        have := Linked_nextPos_succ _ hl j h0
        omega

/-- Witness of C16: the chain built from `collidingBatches`, in which both
blocks have current hash `-1662925062`; the search returns the first block
only. -/
theorem find_built_terminates_iff_witness :
    (∃ b ∈ (buildChain stdHash collidingBatches).GetBlocks, b.CurrentHash = -1662925062) ∧
    ((∃ fuel r, block_chain.find fuel (-1662925062)
        (buildChain stdHash collidingBatches).GetBlocks = some r)
      ↔ ∀ b ∈ (buildChain stdHash collidingBatches).GetBlocks, b.CurrentHash ≠ -1) ∧
    block_chain.find 2 (-1662925062) (buildChain stdHash collidingBatches).GetBlocks
      = some [block.new stdHash (-1) ["B 10 BTC"]] :=
  ⟨by decide,
   (find_built_terminates_iff stdHash collidingBatches (-1662925062) (by decide)).1,
   by decide⟩

end Blockchain
